import Mathlib

/-!
Verification of the AD9850 frequency-generator sketch
(`AD9850_Freq_Gen_Encoder.ino`).

The development embeds the sketch's logic shallowly:

* the AD9850 serial protocol (`tfr_byte`, `sendFrequency`, the setup
  pulse sequence) is modelled as the list of `digitalWrite` events it
  performs, in order;
* the tuning-word computation
  `int32_t freq = frequency * 4294967295/125000000;` is performed by the
  C compiler in IEEE-754 binary64 ("double") arithmetic: the product is
  rounded to nearest-even, the quotient is rounded to nearest-even, and
  the assignment to `int32_t` truncates toward zero.  The binary64
  roundings are modelled exactly, over executable natural-number
  arithmetic: a nonnegative double is a pair `(m, t)` standing for
  `m * 2 ^ t`, and rounding a positive rational `n / d` keeps the top 53
  bits of its binary expansion with ties to even.  The caller passes
  `encoderVal`, a nonnegative clamped `long`, whose conversion to double
  is exact (every integer up to `2 ^ 53` is a binary64 value), so the
  model takes the frequency argument as a natural number;
* the interrupt handlers and the polling loop act on an explicit record
  of the `volatile` program variables.
-/

namespace AD9850

/-! ## Pin assignments (source lines 73-79) -/

def buttonPin : ℕ := 13
def encoderPin1 : ℕ := 19
def encoderPin2 : ℕ := 18
def W_CLK : ℕ := 5
def FQ_UD : ℕ := 6
def DATA : ℕ := 11
def RESET : ℕ := 12

/-! ## Program constants (source lines 82-90, all of C type `long`) -/

def startVal : ℤ := 1000
def minVal : ℤ := 0
def maxVal : ℤ := 32000000
def startInc : ℤ := 1000
def minInc : ℤ := 1
def maxInc : ℤ := 1000000
def divInc : ℤ := 10

/-! ## Wire-level trace model

A `PinWrite` records one `digitalWrite(pin, level)` call; `HIGH` is
`true` and `LOW` is `false`. -/

structure PinWrite where
  pin : ℕ
  level : Bool
deriving DecidableEq, Repr

/-- The `pulseHigh(pin)` macro (source line 70):
`digitalWrite(pin, HIGH); digitalWrite(pin, LOW);`. -/
def pulseHigh (pin : ℕ) : List PinWrite := [⟨pin, true⟩, ⟨pin, false⟩]

/-- The AD9850 part of `setup()` (source lines 116-118):
`pulseHigh(RESET); pulseHigh(W_CLK); pulseHigh(FQ_UD);`. -/
def setupPulses : List PinWrite := pulseHigh RESET ++ pulseHigh W_CLK ++ pulseHigh FQ_UD

/-- The loop body of `tfr_byte` (source lines 177-180), indexed by the
number of remaining iterations: each iteration writes the low bit of
`data` to the `DATA` line, pulses `W_CLK`, and shifts `data` right by
one (`data >>= 1`, i.e. division by 2 on the nonnegative byte). -/
def tfrBits : ℕ → ℕ → List PinWrite
  | 0, _ => []
  | i + 1, data => ⟨DATA, data % 2 == 1⟩ :: (pulseHigh W_CLK ++ tfrBits i (data / 2))

/-- `tfr_byte` (source lines 175-181): transfers a byte to the AD9850,
one bit at a time, LSB first, pulsing `W_CLK` after each bit. -/
def tfr_byte (data : ℕ) : List PinWrite := tfrBits 8 data

/-! ## Exact model of the binary64 arithmetic in `sendFrequency`

`blen fuel n` is the binary length of `n` (number of binary digits),
computed by structural recursion on `fuel`; `bitlen n = blen n n` is
correct because `n < 2 ^ n`. -/

def blen : ℕ → ℕ → ℕ
  | 0, _ => 0
  | fuel + 1, n => if n ≤ 1 then n else blen fuel (n / 2) + 1

def bitlen (n : ℕ) : ℕ := blen n n

/-- `ratLog2 n d` is `⌊log₂ (n / d)⌋` for positive `n`, `d`, computed
with integer arithmetic only: the candidate from the binary lengths is
kept if `2 ^ A ≤ n / d` and decremented otherwise. -/
def ratLog2 (n d : ℕ) : ℤ :=
  let A : ℤ := (bitlen n : ℤ) - (bitlen d : ℤ)
  if (if 0 ≤ A then d * 2 ^ A.toNat ≤ n else d ≤ n * 2 ^ (-A).toNat) then A else A - 1

/-- Round `a / b` to the nearest integer, ties to even (the IEEE-754
default rounding applied to an exact nonnegative quotient). -/
def rneDiv (a b : ℕ) : ℕ :=
  let q := a / b
  let r := a % b
  if 2 * r < b then q
  else if b < 2 * r then q + 1
  else if q % 2 = 0 then q else q + 1

/-- A nonnegative binary64 value: mantissa `m` times `2 ^ t`.  (All
values arising here are far inside the normal range of the format, so
neither overflow nor subnormal rounding can occur and the
mantissa/exponent pair carries the exact semantics.) -/
structure Fp where
  m : ℕ
  t : ℤ
deriving DecidableEq, Repr

/-- The rational value of a modelled double. -/
def Fp.val (x : Fp) : ℚ := (x.m : ℚ) * (2 : ℚ) ^ x.t

/-- Round the nonnegative rational `n / d` to binary64: scale into
`[2 ^ 52, 2 ^ 53)` and round to nearest, ties to even. -/
def fpOfRat (n d : ℕ) : Fp :=
  if n = 0 then ⟨0, 0⟩
  else
    let t : ℤ := ratLog2 n d - 52
    if 0 ≤ t then ⟨rneDiv n (d * 2 ^ t.toNat), t⟩
    else ⟨rneDiv (n * 2 ^ (-t).toNat) d, t⟩

/-- The binary64 division `p / 125000000` of `sendFrequency` line 185:
the exact quotient of the double `p` by the clock constant, rounded to
binary64.  (The constant `125000000` converts to double exactly.) -/
def divByClock (p : Fp) : Fp :=
  if 0 ≤ p.t then fpOfRat (p.m * 2 ^ p.t.toNat) 125000000
  else fpOfRat p.m (125000000 * 2 ^ (-p.t).toNat)

/-- The conversion of a nonnegative double to `int32_t` on line 185:
truncation toward zero, which on a nonnegative value is the floor. -/
def truncFp (x : Fp) : ℕ :=
  if 0 ≤ x.t then x.m * 2 ^ x.t.toNat else x.m / 2 ^ (-x.t).toNat

/-- Line 185, `int32_t freq = frequency * 4294967295/125000000;`, for a
frequency argument holding the nonnegative integer `f`: the double
product `frequency * 4294967295` (the integer literal converts to
double exactly since `4294967295 < 2 ^ 53`; the product itself rounds),
then the double division by `125000000`, then truncation to `int32_t`.
For the clamped caller range `f ≤ 32000000` the result fits easily in
an `int32_t`. -/
def sendFrequencyWord (f : ℕ) : ℕ :=
  truncFp (divByClock (fpOfRat (f * 4294967295) 1))

/-- The serialization loop of `sendFrequency` (source lines 186-188),
indexed by remaining iterations: each iteration transfers `freq & 0xFF`
and then shifts `freq >>= 8` (on the nonnegative word: `% 256` and
`/ 256`). -/
def sendLoop : ℕ → ℕ → List PinWrite
  | 0, _ => []
  | b + 1, freq => tfr_byte (freq % 256) ++ sendLoop b (freq / 256)

/-- `sendFrequency` (source lines 184-191): compute the tuning word,
transfer its 4 bytes LSB-first, transfer the all-zero control byte, and
pulse `FQ_UD`. -/
def sendFrequency (f : ℕ) : List PinWrite :=
  sendLoop 4 (sendFrequencyWord f) ++ tfr_byte 0 ++ pulseHigh FQ_UD

/-! ## Interrupt handlers and the polling loop -/

/-- The `volatile` program state (source lines 92-95). -/
structure EncoderState where
  encoderVal : ℤ
  encoderInc : ℤ
  encoderLH1 : Bool
  encoderLH2 : Bool
deriving DecidableEq, Repr

/-- Initial state: `encoderVal = startVal`, `encoderInc = startInc`,
both latches `false`. -/
def startState : EncoderState := ⟨startVal, startInc, false, false⟩

/-- `ISR_Button` (source lines 142-144): `encoderInc /= divInc;`.
C `long` division truncates toward zero, hence `Int.tdiv`. -/
def ISR_Button (s : EncoderState) : EncoderState :=
  { s with encoderInc := Int.tdiv s.encoderInc divInc }

/-- `ISR_Encoder1` (source lines 146-158), with `pin1` the level read
from `encoderPin1` (stable during the model step): if the line reads
`HIGH`, set `encoderLH1` and, when `encoderLH2` is not set, add
`encoderInc` to `encoderVal`; if the line reads `LOW`, clear
`encoderLH1`. -/
def ISR_Encoder1 (pin1 : Bool) (s : EncoderState) : EncoderState :=
  let s1 :=
    if pin1 = true then
      { s with
        encoderLH1 := true
        encoderVal := if s.encoderLH2 = false then s.encoderVal + s.encoderInc
                      else s.encoderVal }
    else s
  if pin1 = false then { s1 with encoderLH1 := false } else s1

/-- `ISR_Encoder2` (source lines 160-172): the mirror of
`ISR_Encoder1`, subtracting `encoderInc` when `encoderLH1` is not
set. -/
def ISR_Encoder2 (pin2 : Bool) (s : EncoderState) : EncoderState :=
  let s1 :=
    if pin2 = true then
      { s with
        encoderLH2 := true
        encoderVal := if s.encoderLH1 = false then s.encoderVal - s.encoderInc
                      else s.encoderVal }
    else s
  if pin2 = false then { s1 with encoderLH2 := false } else s1

/-- The clamp applied by `loop()` when it observes a changed
`encoderVal` (source lines 128-129): first cap at `maxVal`, then raise
to `minVal`. -/
def loopClampVal (v : ℤ) : ℤ :=
  let v1 := if v > maxVal then maxVal else v
  if v1 < minVal then minVal else v1

/-- The wrap applied by `loop()` when it observes a changed
`encoderInc` (source line 136): an increment below `minInc` becomes
`maxInc`. -/
def loopObserveInc (i : ℤ) : ℤ := if i < minInc then maxInc else i

/-- One button press followed by the loop's observation of the changed
increment: `ISR_Button`'s division, then `loopObserveInc`'s wrap. -/
def pressObserve (i : ℤ) : ℤ := loopObserveInc (Int.tdiv i divInc)

/-! ## Specification-side byte and bit decompositions

These are written from the spec's words ("4 bytes of `w` in
least-significant-byte-first order", "least-significant-bit-first") and
are related to the code model by the claim theorems. -/

/-- The low `b` bytes of `w`, least-significant byte first. -/
def wordBytes : ℕ → ℕ → List ℕ
  | 0, _ => []
  | b + 1, w => (w % 256) :: wordBytes b (w / 256)

/-- The low `i` bits of `d`, least-significant bit first. -/
def byteBitsLSB : ℕ → ℕ → List Bool
  | 0, _ => []
  | i + 1, d => (d % 2 == 1) :: byteBitsLSB i (d / 2)

/-- The 40 data bits of the frame `sendFrequency f` puts on the wire:
the 4 tuning-word bytes LSB-first then the zero control byte, each byte
expanded LSB-first. -/
def frameBits (f : ℕ) : List Bool :=
  (wordBytes 4 (sendFrequencyWord f) ++ [0]).flatMap (byteBitsLSB 8)

/-- The decode map named by the spec's round-trip property:
`decode(w) = w * 125_000_000 / 2^32`. -/
def decodeFreq (w : ℕ) : ℚ := (w : ℚ) * 125000000 / 4294967296

/-! ## Correctness of the binary64 model

The executable functions above are related to exact rational
arithmetic: `bitlen` computes binary lengths, `ratLog2` the binary
logarithm floor, `rneDiv` rounds with error at most `1/2`, and
`fpOfRat` has relative error at most `2 ^ (-53)` — the standard unit
roundoff of binary64 for values in the normal range. -/

lemma blen_bounds : ∀ fuel n : ℕ, n ≤ fuel → 1 ≤ n →
    n < 2 ^ blen fuel n ∧ 2 ^ blen fuel n ≤ 2 * n := by
  intro fuel
  induction fuel with
  | zero => intro n h1 h2; omega
  | succ fuel ih =>
    intro n hn h1
    by_cases hs : n ≤ 1
    · have hn1 : n = 1 := by omega
      subst hn1
      simp [blen]
    · have hrec : n / 2 ≤ fuel := by omega
      have h12 : 1 ≤ n / 2 := by omega
      obtain ⟨u1, u2⟩ := ih (n / 2) hrec h12
      have hb : blen (fuel + 1) n = blen fuel (n / 2) + 1 := by
        simp [blen, hs]
      rw [hb]
      have hp : (2 : ℕ) ^ (blen fuel (n / 2) + 1) = 2 * 2 ^ blen fuel (n / 2) := by
        ring
      omega

lemma bitlen_bounds (n : ℕ) (h : 1 ≤ n) :
    n < 2 ^ bitlen n ∧ 2 ^ bitlen n ≤ 2 * n :=
  blen_bounds n n le_rfl h

/-- The integer test inside `ratLog2` decides `2 ^ k ≤ n / d`. -/
lemma ratLog2_test (k : ℤ) (n d : ℕ) (hd : 0 < d) :
    (if 0 ≤ k then d * 2 ^ k.toNat ≤ n else d ≤ n * 2 ^ (-k).toNat) ↔
      (2 : ℚ) ^ k ≤ (n : ℚ) / d := by
  have hdQ : (0 : ℚ) < d := by exact_mod_cast hd
  split_ifs with hk
  · rw [← Int.toNat_of_nonneg hk, zpow_natCast, le_div_iff₀ hdQ, mul_comm]
    exact_mod_cast Iff.rfl
  · push_neg at hk
    have hz : (2 : ℚ) ^ k = ((2 : ℚ) ^ ((-k).toNat : ℕ))⁻¹ := by
      conv_lhs => rw [show k = -(((-k).toNat : ℤ)) by omega]
      rw [zpow_neg, zpow_natCast]
    rw [hz, inv_eq_one_div, div_le_div_iff₀ (by positivity) hdQ, one_mul]
    exact_mod_cast Iff.rfl

lemma ratLog2_spec (n d : ℕ) (hn : 1 ≤ n) (hd : 1 ≤ d) :
    (2 : ℚ) ^ ratLog2 n d ≤ (n : ℚ) / d ∧ (n : ℚ) / d < 2 ^ (ratLog2 n d + 1) := by
  obtain ⟨hn1, hn2⟩ := bitlen_bounds n hn
  obtain ⟨hd1, hd2⟩ := bitlen_bounds d hd
  have hdQ : (0 : ℚ) < d := by exact_mod_cast hd
  have hnQ1 : (n : ℚ) < 2 ^ (bitlen n : ℤ) := by
    rw [zpow_natCast]; exact_mod_cast hn1
  have hnQ2 : (2 : ℚ) ^ (bitlen n : ℤ) ≤ 2 * n := by
    rw [zpow_natCast]; exact_mod_cast hn2
  have hdQ1 : (d : ℚ) < 2 ^ (bitlen d : ℤ) := by
    rw [zpow_natCast]; exact_mod_cast hd1
  have hdQ2 : (2 : ℚ) ^ (bitlen d : ℤ) ≤ 2 * d := by
    rw [zpow_natCast]; exact_mod_cast hd2
  simp only [ratLog2]
  set a : ℤ := (bitlen n : ℤ) with ha
  set b : ℤ := (bitlen d : ℤ) with hb
  have hup : (n : ℚ) / d < 2 ^ (a - b + 1) := by
    rw [div_lt_iff₀ hdQ]
    have h2b : (2 : ℚ) ^ (b - 1) ≤ d := by
      rw [zpow_sub₀ (two_ne_zero : (2 : ℚ) ≠ 0), zpow_one]
      linarith
    calc (n : ℚ) < 2 ^ a := hnQ1
      _ = 2 ^ (a - b + 1) * 2 ^ (b - 1) := by
          rw [← zpow_add₀ (two_ne_zero : (2 : ℚ) ≠ 0)]
          congr 1
          ring
      _ ≤ 2 ^ (a - b + 1) * d := by
          exact mul_le_mul_of_nonneg_left h2b (le_of_lt (zpow_pos two_pos _))
  have hlo : (2 : ℚ) ^ (a - b - 1) ≤ (n : ℚ) / d := by
    rw [le_div_iff₀ hdQ]
    have h2a : (2 : ℚ) ^ (a - 1) ≤ n := by
      rw [zpow_sub₀ (two_ne_zero : (2 : ℚ) ≠ 0), zpow_one]
      linarith
    calc (2 : ℚ) ^ (a - b - 1) * d ≤ 2 ^ (a - b - 1) * 2 ^ b := by
          exact mul_le_mul_of_nonneg_left (le_of_lt hdQ1) (le_of_lt (zpow_pos two_pos _))
      _ = 2 ^ (a - 1) := by
          rw [← zpow_add₀ (two_ne_zero : (2 : ℚ) ≠ 0)]
          congr 1
          ring
      _ ≤ n := h2a
  by_cases hc :
      (if 0 ≤ a - b then d * 2 ^ (a - b).toNat ≤ n else d ≤ n * 2 ^ (-(a - b)).toNat)
  · rw [if_pos hc]
    exact ⟨(ratLog2_test (a - b) n d hd).1 hc, hup⟩
  · rw [if_neg hc]
    refine ⟨hlo, ?_⟩
    have hq : (n : ℚ) / d < 2 ^ (a - b) :=
      lt_of_not_le fun hle => hc ((ratLog2_test (a - b) n d hd).2 hle)
    have he : a - b - 1 + 1 = a - b := by ring
    rw [he]
    exact hq

lemma rneDiv_err (a b : ℕ) (hb : 0 < b) :
    |(rneDiv a b : ℚ) - (a : ℚ) / b| ≤ 1 / 2 := by
  have hbQ : (0 : ℚ) < b := by exact_mod_cast hb
  have hmod : a % b < b := Nat.mod_lt _ hb
  have hcast : ((a : ℕ) : ℚ) = (b : ℚ) * ((a / b : ℕ) : ℚ) + ((a % b : ℕ) : ℚ) := by
    exact_mod_cast (Nat.div_add_mod a b).symm
  have hq : (a : ℚ) / b = ((a / b : ℕ) : ℚ) + ((a % b : ℕ) : ℚ) / b := by
    field_simp
    linarith
  have hr0 : (0 : ℚ) ≤ ((a % b : ℕ) : ℚ) / b := by positivity
  have hr1 : ((a % b : ℕ) : ℚ) / b < 1 := by
    rw [div_lt_one hbQ]
    exact_mod_cast hmod
  rw [hq]
  simp only [rneDiv]
  split_ifs with h1 h2 h3
  · have hx : ((a % b : ℕ) : ℚ) / b < 1 / 2 := by
      rw [div_lt_iff₀ hbQ]
      have : ((2 * (a % b) : ℕ) : ℚ) < b := by exact_mod_cast h1
      push_cast at this
      linarith
    rw [abs_le]
    constructor <;> linarith
  · have hx : 1 / 2 < ((a % b : ℕ) : ℚ) / b := by
      rw [lt_div_iff₀ hbQ]
      have : (b : ℚ) < ((2 * (a % b) : ℕ) : ℚ) := by exact_mod_cast h2
      push_cast at this
      linarith
    push_cast
    rw [abs_le]
    constructor <;> linarith
  · have hbb : b = 2 * (a % b) := by omega
    have hx : ((a % b : ℕ) : ℚ) / b = 1 / 2 := by
      have hb2 : (b : ℚ) = 2 * ((a % b : ℕ) : ℚ) := by exact_mod_cast hbb
      have hm0 : (0 : ℚ) < ((a % b : ℕ) : ℚ) := by
        have : 0 < a % b := by omega
        exact_mod_cast this
      rw [hb2]
      field_simp
      ring
    rw [abs_le]
    constructor <;> linarith
  · have hbb : b = 2 * (a % b) := by omega
    have hx : ((a % b : ℕ) : ℚ) / b = 1 / 2 := by
      have hb2 : (b : ℚ) = 2 * ((a % b : ℕ) : ℚ) := by exact_mod_cast hbb
      have hm0 : (0 : ℚ) < ((a % b : ℕ) : ℚ) := by
        have : 0 < a % b := by omega
        exact_mod_cast this
      rw [hb2]
      field_simp
      ring
    push_cast
    rw [abs_le]
    constructor <;> linarith

lemma abs_sub_mul_le (x y c : ℚ) (hc : 0 < c) (h : |x - y| ≤ 1 / 2) :
    |x * c - y * c| ≤ c / 2 := by
  rw [← sub_mul, abs_mul, abs_of_pos hc]
  calc |x - y| * c ≤ 1 / 2 * c := mul_le_mul_of_nonneg_right h (le_of_lt hc)
    _ = c / 2 := by ring

lemma Fp.val_nonneg (x : Fp) : 0 ≤ x.val := by
  rw [Fp.val]
  positivity

/-- Relative error of one binary64 rounding: at most half an ulp,
which for a positive argument `q = n / d` is at most `q / 2 ^ 53`. -/
lemma fpOfRat_err (n d : ℕ) (hn : 0 < n) (hd : 0 < d) :
    |(fpOfRat n d).val - (n : ℚ) / d| ≤ ((n : ℚ) / d) / 2 ^ 53 := by
  obtain ⟨hlo, hhi⟩ := ratLog2_spec n d hn hd
  have hdQ : (0 : ℚ) < d := by exact_mod_cast hd
  have hn0 : ¬ n = 0 := by omega
  simp only [fpOfRat, if_neg hn0]
  set t : ℤ := ratLog2 n d - 52 with ht
  have h2t : (0 : ℚ) < (2 : ℚ) ^ t := zpow_pos (by norm_num) t
  have hulp : (2 : ℚ) ^ t / 2 ≤ ((n : ℚ) / d) / 2 ^ 53 := by
    have h1 : (2 : ℚ) ^ t / 2 = 2 ^ ratLog2 n d / 2 ^ (53 : ℕ) := by
      rw [ht, zpow_sub₀ (two_ne_zero : (2 : ℚ) ≠ 0), div_div,
        show ((52 : ℤ)) = ((52 : ℕ) : ℤ) from rfl, zpow_natCast]
      norm_num
    rw [h1]
    exact (div_le_div_iff_of_pos_right (by positivity)).2 hlo
  split_ifs with htn
  · simp only [Fp.val]
    set D := d * 2 ^ t.toNat with hD
    have hDpos : 0 < D := Nat.mul_pos hd (pow_pos (by norm_num) _)
    have hDQ : ((D : ℕ) : ℚ) = (d : ℚ) * (2 : ℚ) ^ t := by
      rw [hD]
      push_cast
      rw [← zpow_natCast (2 : ℚ), Int.toNat_of_nonneg htn]
    have hkey : (n : ℚ) / D = ((n : ℚ) / d) / (2 : ℚ) ^ t := by
      rw [hDQ]
      ring
    have herr := rneDiv_err n D hDpos
    have hscaled := abs_sub_mul_le (rneDiv n D : ℚ) ((n : ℚ) / D) ((2 : ℚ) ^ t) h2t herr
    have hcancel : ((n : ℚ) / D) * (2 : ℚ) ^ t = (n : ℚ) / d := by
      rw [hkey]
      exact div_mul_cancel₀ _ (ne_of_gt h2t)
    rw [hcancel] at hscaled
    exact le_trans hscaled hulp
  · simp only [Fp.val]
    set N := n * 2 ^ (-t).toNat with hN
    have hNpos : 0 < N := Nat.mul_pos hn (pow_pos (by norm_num) _)
    have hNQ : ((N : ℕ) : ℚ) = (n : ℚ) / (2 : ℚ) ^ t := by
      rw [hN]
      push_cast
      rw [← zpow_natCast (2 : ℚ), Int.toNat_of_nonneg (by omega : (0 : ℤ) ≤ -t),
        zpow_neg, ← div_eq_mul_inv]
    have hkey : (N : ℚ) / d = ((n : ℚ) / d) / (2 : ℚ) ^ t := by
      rw [hNQ]
      ring
    have herr := rneDiv_err N d hd
    have hscaled := abs_sub_mul_le (rneDiv N d : ℚ) ((N : ℚ) / d) ((2 : ℚ) ^ t) h2t herr
    have hcancel : ((N : ℚ) / d) * (2 : ℚ) ^ t = (n : ℚ) / d := by
      rw [hkey]
      exact div_mul_cancel₀ _ (ne_of_gt h2t)
    rw [hcancel] at hscaled
    exact le_trans hscaled hulp

/-- A rounded positive value has a positive mantissa. -/
lemma fpOfRat_m_pos (n d : ℕ) (hn : 0 < n) (hd : 0 < d) : 0 < (fpOfRat n d).m := by
  by_contra hm
  have hm0 : (fpOfRat n d).m = 0 := by omega
  have hval : (fpOfRat n d).val = 0 := by
    rw [Fp.val, hm0]
    simp
  have herr := fpOfRat_err n d hn hd
  rw [hval] at herr
  have hq : (0 : ℚ) < (n : ℚ) / d := by
    have h1 : (0 : ℚ) < n := by exact_mod_cast hn
    have h2 : (0 : ℚ) < d := by exact_mod_cast hd
    positivity
  rw [zero_sub, abs_neg, abs_of_pos hq] at herr
  have : (n : ℚ) / d / 2 ^ 53 < (n : ℚ) / d := div_lt_self hq (by norm_num)
  linarith

/-- The fraction handed to `fpOfRat` inside `divByClock` has value
`p.val / 125000000`, so `divByClock` inherits the rounding bound. -/
lemma divByClock_err (p : Fp) (hm : 0 < p.m) :
    |(divByClock p).val - p.val / 125000000| ≤ (p.val / 125000000) / 2 ^ 53 := by
  rw [divByClock]
  split_ifs with ht
  · have h := fpOfRat_err (p.m * 2 ^ p.t.toNat) 125000000
      (Nat.mul_pos hm (pow_pos (by norm_num) _)) (by norm_num)
    have hcast : ((p.m * 2 ^ p.t.toNat : ℕ) : ℚ) / ((125000000 : ℕ) : ℚ)
        = p.val / 125000000 := by
      rw [Fp.val]
      push_cast
      rw [← zpow_natCast (2 : ℚ), Int.toNat_of_nonneg ht]
    rw [hcast] at h
    exact h
  · push_neg at ht
    have h := fpOfRat_err p.m (125000000 * 2 ^ (-p.t).toNat) hm
      (Nat.mul_pos (by norm_num) (pow_pos (by norm_num) _))
    have hcast : ((p.m : ℕ) : ℚ) / ((125000000 * 2 ^ (-p.t).toNat : ℕ) : ℚ)
        = p.val / 125000000 := by
      rw [Fp.val]
      push_cast
      rw [← zpow_natCast (2 : ℚ), Int.toNat_of_nonneg (by omega : (0 : ℤ) ≤ -p.t),
        zpow_neg]
      rw [div_eq_mul_inv, mul_inv, inv_inv, div_eq_mul_inv]
      ring
    rw [hcast] at h
    exact h

/-- Natural division is the `Int.floor` of the rational division. -/
lemma floor_nat_div (a b : ℕ) (hb : 0 < b) :
    ⌊(a : ℚ) / (b : ℚ)⌋ = ((a / b : ℕ) : ℤ) := by
  have hbQ : (0 : ℚ) < b := by exact_mod_cast hb
  rw [Int.floor_eq_iff]
  constructor
  · rw [le_div_iff₀ hbQ]
    exact_mod_cast Nat.div_mul_le_self a b
  · rw [div_lt_iff₀ hbQ]
    have h1 : a < (a / b + 1) * b := by
      have h2 := Nat.div_add_mod a b
      have h3 := Nat.mod_lt a hb
      calc a = b * (a / b) + a % b := h2.symm
        _ < b * (a / b) + b := by omega
        _ = (a / b + 1) * b := by ring
    exact_mod_cast h1

/-- `truncFp` computes the floor of the value (these values are
nonnegative, so C truncation toward zero is the floor). -/
lemma truncFp_floor (x : Fp) : ((truncFp x : ℕ) : ℤ) = ⌊x.val⌋ := by
  rw [truncFp, Fp.val]
  split_ifs with ht
  · have h1 : (x.m : ℚ) * 2 ^ x.t = ((x.m * 2 ^ x.t.toNat : ℕ) : ℚ) := by
      push_cast
      rw [← zpow_natCast (2 : ℚ), Int.toNat_of_nonneg ht]
    rw [h1, Int.floor_natCast]
  · push_neg at ht
    have h1 : (x.m : ℚ) * 2 ^ x.t = (x.m : ℚ) / ((2 : ℚ) ^ ((-x.t).toNat : ℕ)) := by
      rw [← zpow_natCast (2 : ℚ), Int.toNat_of_nonneg (by omega : (0 : ℤ) ≤ -x.t),
        zpow_neg, div_eq_mul_inv, inv_inv]
    rw [h1]
    have h2 : ((2 : ℚ) ^ ((-x.t).toNat : ℕ)) = (((2 ^ (-x.t).toNat : ℕ) : ℕ) : ℚ) := by
      push_cast
      rfl
    rw [h2, floor_nat_div x.m (2 ^ (-x.t).toNat) (pow_pos (by norm_num) _)]

/-- Main numeric bound.  For the clamped caller range, the computed
tuning word is the spec's `⌊f * 2 ^ 32 / 125000000⌋` or exactly one
less.  The code multiplies by `4294967295 = 2 ^ 32 - 1`, so the exact
pre-rounding value falls short of the spec's by `f / 125000000 ≤ 0.256`,
and the two binary64 roundings perturb the quotient by a relative
factor between `(1 - 2 ^ (-53)) ^ 2` and `(1 + 2 ^ (-53)) ^ 2`, which
keeps it strictly below the spec's value and above that value minus
one. -/
lemma word_floor_bounds (f : ℕ) (hf : f ≤ 32000000) :
    ⌊(f : ℚ) * 4294967296 / 125000000⌋ - 1 ≤ (sendFrequencyWord f : ℤ) ∧
    (sendFrequencyWord f : ℤ) ≤ ⌊(f : ℚ) * 4294967296 / 125000000⌋ := by
  rcases Nat.eq_zero_or_pos f with hf0 | hfpos
  · subst hf0
    have h0 : sendFrequencyWord 0 = 0 := by decide
    rw [h0]
    norm_num [Int.floor_zero]
  · set E : ℚ := (f : ℚ) * 4294967296 / 125000000 with hE
    set P : Fp := fpOfRat (f * 4294967295) 1 with hP
    have hApos : 0 < f * 4294967295 := Nat.mul_pos hfpos (by norm_num)
    have hPerr := fpOfRat_err (f * 4294967295) 1 hApos (by norm_num)
    have hA : ((f * 4294967295 : ℕ) : ℚ) / ((1 : ℕ) : ℚ) = (f : ℚ) * 4294967295 := by
      push_cast
      ring
    rw [hA] at hPerr
    have hPm : 0 < P.m := fpOfRat_m_pos _ _ hApos (by norm_num)
    have hXerr := divByClock_err P hPm
    rw [abs_le] at hPerr hXerr
    obtain ⟨hP1, hP2⟩ := hPerr
    obtain ⟨hX1, hX2⟩ := hXerr
    have hw0 : sendFrequencyWord f = truncFp (divByClock P) := by
      rw [hP]
      rfl
    have hw : (sendFrequencyWord f : ℤ) = ⌊(divByClock P).val⌋ := by
      rw [hw0, truncFp_floor]
    rw [hw]
    set x : ℚ := (divByClock P).val with hx
    set pv : ℚ := P.val with hpv
    have hfQ : (1 : ℚ) ≤ (f : ℚ) := by exact_mod_cast hfpos
    have hfQ2 : (f : ℚ) ≤ 32000000 := by exact_mod_cast hf
    have hupper : x < E := by
      linarith
    have hlower : E - 1 < x := by
      linarith
    refine ⟨?_, Int.floor_mono (le_of_lt hupper)⟩
    have h1 : ((⌊E⌋ - 1 : ℤ) : ℚ) ≤ x := by
      push_cast
      have h2 := Int.floor_le E
      linarith
    exact Int.le_floor.2 h1

/-! ## Structure of the serial bit stream -/

/-- `tfr_byte`'s loop emits, for each of the low `i` bits of `data`
LSB-first, a `DATA` write followed by one `W_CLK` pulse. -/
lemma tfrBits_eq (i : ℕ) : ∀ d : ℕ,
    tfrBits i d = (byteBitsLSB i d).flatMap
      (fun b => PinWrite.mk DATA b :: pulseHigh W_CLK) := by
  induction i with
  | zero => intro d; rfl
  | succ i ih =>
    intro d
    simp [tfrBits, byteBitsLSB, ih, pulseHigh]

lemma byteBitsLSB_length (i : ℕ) : ∀ d : ℕ, (byteBitsLSB i d).length = i := by
  induction i with
  | zero => intro d; rfl
  | succ i ih => intro d; simp [byteBitsLSB, ih]

/-- The serialization loop of `sendFrequency` transfers exactly the
`wordBytes` decomposition of the word, LSB-first. -/
lemma sendLoop_eq (b : ℕ) : ∀ w : ℕ,
    sendLoop b w = (wordBytes b w).flatMap tfr_byte := by
  induction b with
  | zero => intro w; rfl
  | succ b ih => intro w; simp [sendLoop, wordBytes, ih]

/-- The five bytes `sendFrequency` hands to `tfr_byte`, explicitly. -/
lemma wordBytes_explicit (w : ℕ) :
    wordBytes 4 w ++ [0]
      = [w % 256, w / 2 ^ 8 % 256, w / 2 ^ 16 % 256, w / 2 ^ 24 % 256, 0] := by
  simp [wordBytes, Nat.div_div_eq_div_mul]

/-- One bit's worth of wire traffic: the `DATA` write and the clock
pulse that follows it. -/
lemma block_countP_data (b : Bool) :
    (PinWrite.mk DATA b :: pulseHigh W_CLK).countP (fun e => e.pin == DATA) = 1 := by
  cases b <;> rfl

lemma block_countP_clk (b : Bool) :
    (PinWrite.mk DATA b :: pulseHigh W_CLK).countP
      (fun e => e.pin == W_CLK && e.level) = 1 := by
  cases b <;> rfl

lemma block_countP_fqud (b : Bool) :
    (PinWrite.mk DATA b :: pulseHigh W_CLK).countP (fun e => e.pin == FQ_UD) = 0 := by
  cases b <;> rfl

lemma block_length (b : Bool) :
    (PinWrite.mk DATA b :: pulseHigh W_CLK).length = 3 := rfl

/-- `sendFrequency` as one flat 40-bit data/clock stream followed by
the latch pulse. -/
lemma sendFrequency_flat (f : ℕ) :
    sendFrequency f
      = (frameBits f).flatMap (fun b => PinWrite.mk DATA b :: pulseHigh W_CLK)
        ++ pulseHigh FQ_UD := by
  have h0 : tfr_byte 0 = ([0] : List ℕ).flatMap tfr_byte := by simp
  rw [sendFrequency, sendLoop_eq, frameBits, h0, ← List.flatMap_append,
    List.flatMap_assoc]
  congr 1

lemma frameBits_length (f : ℕ) : (frameBits f).length = 40 := by
  rw [frameBits, List.length_flatMap]
  simp [wordBytes, byteBitsLSB_length]

lemma frame_countP_data (bits : List Bool) :
    ((bits.flatMap (fun b => PinWrite.mk DATA b :: pulseHigh W_CLK)).countP
      (fun e => e.pin == DATA)) = bits.length := by
  induction bits with
  | nil => rfl
  | cons b bits ih =>
    rw [List.flatMap_cons, List.countP_append, block_countP_data, ih,
      List.length_cons]
    omega

lemma frame_countP_clk (bits : List Bool) :
    ((bits.flatMap (fun b => PinWrite.mk DATA b :: pulseHigh W_CLK)).countP
      (fun e => e.pin == W_CLK && e.level)) = bits.length := by
  induction bits with
  | nil => rfl
  | cons b bits ih =>
    rw [List.flatMap_cons, List.countP_append, block_countP_clk, ih,
      List.length_cons]
    omega

lemma frame_countP_fqud (bits : List Bool) :
    ((bits.flatMap (fun b => PinWrite.mk DATA b :: pulseHigh W_CLK)).countP
      (fun e => e.pin == FQ_UD)) = 0 := by
  induction bits with
  | nil => rfl
  | cons b bits ih =>
    rw [List.flatMap_cons, List.countP_append, block_countP_fqud, ih]

lemma frame_flat_length (bits : List Bool) :
    (bits.flatMap (fun b => PinWrite.mk DATA b :: pulseHigh W_CLK)).length
      = 3 * bits.length := by
  induction bits with
  | nil => rfl
  | cons b bits ih =>
    rw [List.flatMap_cons, List.length_append, block_length, ih,
      List.length_cons]
    omega

/-! ## The claims -/

/-- Claim C1, counterexample.  The claim says the serialized tuning
word equals `⌊f * 2 ^ 32 / 125000000⌋` for every `f` in the legal
range; at `f = 1953125` the code (which multiplies by `2 ^ 32 - 1` in
double precision) produces `67108863` while the claimed formula gives
`2 ^ 26 = 67108864`. -/
theorem C1_counterexample :
    (sendFrequencyWord 1953125 : ℤ) ≠ ⌊(1953125 : ℚ) * 4294967296 / 125000000⌋ := by
  have h1 : ⌊(1953125 : ℚ) * 4294967296 / 125000000⌋ = (67108864 : ℤ) := by
    rw [show (1953125 : ℚ) * 4294967296 / 125000000 = ((67108864 : ℤ) : ℚ) by norm_num]
    exact Int.floor_intCast _
  have h2 : sendFrequencyWord 1953125 = 67108863 := by decide
  rw [h1, h2]
  decide

/-- Claim C1, amended.  For every `f` in `[0, 32000000]` the 32-bit
tuning word serialized by `sendFrequency` equals
`⌊f * 2 ^ 32 / 125000000⌋` or exactly that value minus one. -/
theorem C1_amended (f : ℕ) (hf : f ≤ 32000000) :
    ⌊(f : ℚ) * 4294967296 / 125000000⌋ - 1 ≤ (sendFrequencyWord f : ℤ) ∧
    (sendFrequencyWord f : ℤ) ≤ ⌊(f : ℚ) * 4294967296 / 125000000⌋ :=
  word_floor_bounds f hf

/-- Claim C1 amended, witness at `f = 1953125` (where the word is one
less than the claimed floor). -/
theorem C1_amended_witness :
    (1953125 : ℕ) ≤ 32000000 ∧
      (⌊((1953125 : ℕ) : ℚ) * 4294967296 / 125000000⌋ - 1
          ≤ (sendFrequencyWord 1953125 : ℤ) ∧
        (sendFrequencyWord 1953125 : ℤ)
          ≤ ⌊((1953125 : ℕ) : ℚ) * 4294967296 / 125000000⌋) :=
  ⟨by norm_num, C1_amended 1953125 (by norm_num)⟩

/-- Claim C2.  Every frame `sendFrequency` emits is exactly: for each
of the 40 frame bits (5 bytes expanded LSB-first), a `DATA` write of
that bit followed by one `W_CLK` high-then-low pulse; then a single
`FQ_UD` pulse after all 120 data/clock writes — so 40 data writes, 40
clock pulses, no latch activity before the final pulse. -/
theorem C2_frame_protocol (f : ℕ) :
    sendFrequency f
        = (frameBits f).flatMap (fun b => PinWrite.mk DATA b :: pulseHigh W_CLK)
          ++ pulseHigh FQ_UD
      ∧ (frameBits f).length = 40
      ∧ (sendFrequency f).countP (fun e => e.pin == DATA) = 40
      ∧ (sendFrequency f).countP (fun e => e.pin == W_CLK && e.level) = 40
      ∧ ((sendFrequency f).take 120).countP (fun e => e.pin == FQ_UD) = 0
      ∧ (sendFrequency f).drop 120 = pulseHigh FQ_UD := by
  have hlen : ((frameBits f).flatMap
      (fun b => PinWrite.mk DATA b :: pulseHigh W_CLK)).length = 120 := by
    rw [frame_flat_length, frameBits_length]
  refine ⟨sendFrequency_flat f, frameBits_length f, ?_, ?_, ?_, ?_⟩
  · rw [sendFrequency_flat, List.countP_append, frame_countP_data,
      frameBits_length]
    rfl
  · rw [sendFrequency_flat, List.countP_append, frame_countP_clk,
      frameBits_length]
    rfl
  · rw [sendFrequency_flat, List.take_left' hlen, frame_countP_fqud]
  · rw [sendFrequency_flat, List.drop_left' hlen]

/-- Claim C3.  A rising edge on channel A while channel B's latch is
clear adds exactly the current increment and sets latch A; a rising
edge on channel B while latch A is clear subtracts exactly the current
increment and sets latch B; a falling edge on either channel only
clears that channel's own latch and never changes the value. -/
theorem C3_direction (s : EncoderState) :
    (s.encoderLH2 = false →
      ISR_Encoder1 true s
        = { s with encoderVal := s.encoderVal + s.encoderInc, encoderLH1 := true })
  ∧ (s.encoderLH1 = false →
      ISR_Encoder2 true s
        = { s with encoderVal := s.encoderVal - s.encoderInc, encoderLH2 := true })
  ∧ ISR_Encoder1 false s = { s with encoderLH1 := false }
  ∧ ISR_Encoder2 false s = { s with encoderLH2 := false } := by
  refine ⟨fun h => ?_, fun h => ?_, ?_, ?_⟩
  · simp [ISR_Encoder1, h]
  · simp [ISR_Encoder2, h]
  · simp [ISR_Encoder1]
  · simp [ISR_Encoder2]

/-- Claim C3, witness: one clockwise and one counterclockwise rising
edge from the start state. -/
theorem C3_direction_witness :
    ISR_Encoder1 true ⟨1000, 1000, false, false⟩ = ⟨2000, 1000, true, false⟩
  ∧ ISR_Encoder2 true ⟨1000, 1000, false, false⟩ = ⟨0, 1000, false, true⟩ := by
  constructor
  · have h := (C3_direction ⟨1000, 1000, false, false⟩).1 rfl
    rw [h]
    decide
  · have h := (C3_direction ⟨1000, 1000, false, false⟩).2.1 rfl
    rw [h]
    decide

/-- Claim C4.  Each button press divides the increment by the fixed
factor `divInc = 10` (truncating division), and the loop's observation
wraps a result below `minInc = 1` to `maxInc = 1000000` instead of
clamping; consequently press-then-observe steps through the decade
values cyclically with period 7 from every decade value. -/
theorem C4_increment_cycle :
    (∀ s : EncoderState, (ISR_Button s).encoderInc = Int.tdiv s.encoderInc divInc)
  ∧ pressObserve 1000000 = 100000 ∧ pressObserve 100000 = 10000
  ∧ pressObserve 10000 = 1000 ∧ pressObserve 1000 = 100
  ∧ pressObserve 100 = 10 ∧ pressObserve 10 = 1
  ∧ pressObserve 1 = 1000000
  ∧ pressObserve^[7] 1000000 = 1000000 ∧ pressObserve^[7] 100000 = 100000
  ∧ pressObserve^[7] 10000 = 10000 ∧ pressObserve^[7] 1000 = 1000
  ∧ pressObserve^[7] 100 = 100 ∧ pressObserve^[7] 10 = 10
  ∧ pressObserve^[7] 1 = 1 := by
  refine ⟨fun s => rfl, ?_⟩
  decide

/-- Claim C5.  After the controller loop's observation clamp, the
frequency value lies in `[minVal, maxVal] = [0, 32000000]`: a value
below the range is set to `0`, a value above it to `32000000`, and an
in-range value is unchanged. -/
theorem C5_clamped_range (v : ℤ) :
    minVal ≤ loopClampVal v ∧ loopClampVal v ≤ maxVal
  ∧ (v < minVal → loopClampVal v = minVal)
  ∧ (maxVal < v → loopClampVal v = maxVal)
  ∧ (minVal ≤ v → v ≤ maxVal → loopClampVal v = v) := by
  simp only [loopClampVal, minVal, maxVal]
  split_ifs <;> omega

/-- Claim C5, witness: an underflowing and an overflowing value. -/
theorem C5_clamped_range_witness :
    loopClampVal (-5) = minVal ∧ loopClampVal 40000000 = maxVal :=
  ⟨(C5_clamped_range (-5)).2.2.1 (by decide),
    (C5_clamped_range 40000000).2.2.2.1 (by decide)⟩

/-- Claim C6.  A single `sendFrequency` call transfers exactly 5 bytes
— the 4 bytes of the tuning word in least-significant-byte-first order
followed by an always-zero control byte — each through `tfr_byte`. -/
theorem C6_five_bytes (f : ℕ) :
    sendFrequency f
        = (wordBytes 4 (sendFrequencyWord f) ++ [0]).flatMap tfr_byte
          ++ pulseHigh FQ_UD
      ∧ wordBytes 4 (sendFrequencyWord f) ++ [0]
          = [sendFrequencyWord f % 256, sendFrequencyWord f / 2 ^ 8 % 256,
             sendFrequencyWord f / 2 ^ 16 % 256, sendFrequencyWord f / 2 ^ 24 % 256, 0]
      ∧ (wordBytes 4 (sendFrequencyWord f) ++ [0]).length = 5
      ∧ (wordBytes 4 (sendFrequencyWord f) ++ [0]).getLast? = some 0 := by
  refine ⟨?_, wordBytes_explicit _, by simp [wordBytes], by simp [wordBytes]⟩
  rw [sendFrequency, sendLoop_eq, List.flatMap_append]
  simp

/-- Claim C7, counterexample.  The claimed end-to-end scenario says
encoding frequency `2100` yields tuning word `72`; the code (and the
spec's own formula `⌊2100 * 2 ^ 32 / 125000000⌋ = 72155`) give
`72155`. -/
theorem C7_counterexample :
    sendFrequencyWord 2100 = 72155 ∧ sendFrequencyWord 2100 ≠ 72 := by
  decide

/-- Claim C7, amended.  Starting from `value = 1000, increment = 1000`:
one clockwise rising edge yields `2000`; completing the detent and
pressing the button yields increment `100` (unchanged by the loop's
observation); one further clockwise rising edge yields `2100`; and
encoding `2100` yields tuning word `72155`. -/
theorem C7_end_to_end :
    (let s1 := ISR_Encoder1 true startState
     let s2 := ISR_Encoder1 false s1
     let s3 := ISR_Button s2
     let s4 := { s3 with encoderInc := loopObserveInc s3.encoderInc }
     let s5 := ISR_Encoder1 true s4
     s1.encoderVal = 2000 ∧ s3.encoderInc = 100 ∧ s4.encoderInc = 100
       ∧ s5.encoderVal = 2100)
  ∧ sendFrequencyWord 2100 = 72155 := by
  decide

/-- Claim C8, counterexample.  The claim bounds the decode round-trip
error by one quantization step `125000000 / 2 ^ 32 ≈ 0.0291 Hz`; at
`f = 30000000` the code's word `1030792150` decodes `≈ 0.0303 Hz` below
`f`, exceeding one step. -/
theorem C8_counterexample :
    |decodeFreq (sendFrequencyWord 30000000) - (30000000 : ℚ)|
      > 125000000 / 4294967296 := by
  have h : sendFrequencyWord 30000000 = 1030792150 := by decide
  rw [h, decodeFreq]
  rw [abs_of_neg (by norm_num)]
  norm_num

/-- Claim C8, amended.  For every `f` in `[0, 32000000]`, decoding the
code's tuning word recovers `f` to within two quantization steps:
`|decode(encode(f)) - f| ≤ 2 * 125000000 / 2 ^ 32 ≈ 0.0582 Hz`. -/
theorem C8_amended (f : ℕ) (hf : f ≤ 32000000) :
    |decodeFreq (sendFrequencyWord f) - (f : ℚ)| ≤ 2 * (125000000 / 4294967296) := by
  obtain ⟨h1, h2⟩ := word_floor_bounds f hf
  set E : ℚ := (f : ℚ) * 4294967296 / 125000000 with hE
  have hfl : ((⌊E⌋ : ℤ) : ℚ) ≤ E := Int.floor_le E
  have hfl2 : E < (⌊E⌋ : ℚ) + 1 := Int.lt_floor_add_one E
  have hc1 : ((⌊E⌋ - 1 : ℤ) : ℚ) ≤ ((sendFrequencyWord f : ℤ) : ℚ) := by
    exact_mod_cast h1
  have hc2 : ((sendFrequencyWord f : ℤ) : ℚ) ≤ ((⌊E⌋ : ℤ) : ℚ) := by
    exact_mod_cast h2
  rw [decodeFreq]
  push_cast at hc1 hc2 ⊢
  rw [abs_le]
  constructor
  · linarith
  · linarith

/-- Claim C8 amended, witness at `f = 1953125`, where the round-trip
error is exactly one quantization step. -/
theorem C8_amended_witness :
    (1953125 : ℕ) ≤ 32000000 ∧
      |decodeFreq (sendFrequencyWord 1953125) - ((1953125 : ℕ) : ℚ)|
        ≤ 2 * (125000000 / 4294967296) :=
  ⟨by norm_num, C8_amended 1953125 (by norm_num)⟩

/-- Claim C9.  At startup the initialization performs exactly, once,
in this order: a reset pulse, a load-clock pulse, a frequency-update
pulse — and it writes nothing on the data line, so no frame precedes
it. -/
theorem C9_init_sequence :
    setupPulses
        = [⟨RESET, true⟩, ⟨RESET, false⟩, ⟨W_CLK, true⟩, ⟨W_CLK, false⟩,
           ⟨FQ_UD, true⟩, ⟨FQ_UD, false⟩]
      ∧ setupPulses.countP (fun e => e.pin == RESET) = 2
      ∧ setupPulses.countP (fun e => e.pin == DATA) = 0 := by
  decide

/-- Claim C10.  A button press at increment `1` truncates to `0`
(`1 / 10 = 0`); while the increment is `0`, rising edges on either
channel leave the value unchanged (a detent is silently lost); the
loop's next observation wraps `0` to `maxInc = 1000000`. -/
theorem C10_lost_detent :
    (∀ s : EncoderState, s.encoderInc = 1 → (ISR_Button s).encoderInc = 0)
  ∧ (∀ (s : EncoderState) (lvl : Bool), s.encoderInc = 0 →
      (ISR_Encoder1 lvl s).encoderVal = s.encoderVal
        ∧ (ISR_Encoder2 lvl s).encoderVal = s.encoderVal)
  ∧ loopObserveInc 0 = maxInc := by
  refine ⟨fun s h => ?_, fun s lvl h => ⟨?_, ?_⟩, by decide⟩
  · simp only [ISR_Button, h, divInc]
    decide
  · cases lvl <;> simp [ISR_Encoder1, h]
  · cases lvl <;> simp [ISR_Encoder2, h]

/-- Claim C10, witness: the press at increment 1 and a lost rising
edge at increment 0. -/
theorem C10_lost_detent_witness :
    (ISR_Button ⟨1000, 1, false, false⟩).encoderInc = 0
  ∧ (ISR_Encoder1 true ⟨1000, 0, false, false⟩).encoderVal = 1000 :=
  ⟨C10_lost_detent.1 ⟨1000, 1, false, false⟩ rfl,
    (C10_lost_detent.2.1 ⟨1000, 0, false, false⟩ true rfl).1⟩

end AD9850
